import Mathlib

/-!
Verification of the password-generation core of the Password-Generator
repository (src/assets/password-generator.js).

Strings are embedded as `List Char` (JavaScript code points; all character
sets in play are ASCII, where string indexing and spreading agree).  The
random source (`secureRandom`) is embedded as an environment `g : Nat → Nat`
of raw draws together with a cursor `k : Nat`; `secureRandom(max)` at cursor
`k` yields `g k % max` (the JS crypto path computes `array[0] % max` on an
arbitrary 32-bit value) and advances the cursor.  All generation functions
thread the cursor explicitly, so the number of random draws a computation
consumes is the difference of cursors.

`Math.ceil(length * 0.1)` is embedded as `(length + 9) / 10`: for every
natural `n` in the representable range, the IEEE-754 double product
`n * 0.1` rounds to a value whose ceiling equals `⌈n / 10⌉` (for multiples
of 10 the product `m⋅2^55 + 2m` over `2^55` rounds back to `m` exactly,
since `2m/2^55` is below half an ulp; otherwise the true quotient is at
least 0.1 away from any integer, far beyond the rounding error).  Likewise
`symbolCount >= maxSymbols * 0.9` is embedded as `10 * symbolCount ≥
9 * maxSymbols`, exact for the same reason.
-/

namespace PG

/-- Settings record read from the form (cookie layer is out of scope). -/
structure PasswordSettings where
  length : Nat
  amount : Nat
  includeNumbers : Bool
  includeLowercase : Bool
  includeUppercase : Bool
  includeSymbols : Bool
  customSymbols : List Char
  noStartNumber : Bool
  noStartSymbol : Bool
  noSimilar : Bool
  noDuplicate : Bool
  noSequential : Bool
deriving Repr, DecidableEq

/-- Errors surfaced through `showTooltip`/`throw` in the generation path. -/
inductive GenError where
  | emptyCharset
  | emptyFirstCharPool
  | notEnoughUniqueChars (available required : Nat)
  | emptyCharsetAfterSimilar
  | emptyFirstCharPoolAfterSimilar
  | failedStartChar
  | characterExhaustion (position : Nat)
deriving Repr, DecidableEq

def numbersSet : List Char := "0123456789".toList

def lowercaseSet : List Char := "abcdefghijklmnopqrstuvwxyz".toList

def uppercaseSet : List Char := "ABCDEFGHIJKLMNOPQRSTUVWXYZ".toList

def defaultSymbols : List Char := "!#%*+-=?@^_~".toList

/-- `similarChars` constant of `generateSinglePassword`. -/
def similarChars : List Char := "iIl1oO0".toList

/-- The symbols set chosen in `generatePasswords`: custom symbols when
non-empty, the default set otherwise, and empty when symbols are off. -/
def symbolsSetOf (s : PasswordSettings) : List Char :=
  if s.includeSymbols then
    if s.customSymbols.length > 0 then s.customSymbols else defaultSymbols
  else []

/-- The combined charset built in `generatePasswords` (categories
concatenated in fixed order). -/
def charsetOf (s : PasswordSettings) : List Char :=
  (if s.includeNumbers then numbersSet else [])
    ++ (if s.includeLowercase then lowercaseSet else [])
    ++ (if s.includeUppercase then uppercaseSet else [])
    ++ (if s.includeSymbols then symbolsSetOf s else [])

/-- The first-character pool built in `generatePasswords`: the charset with
digits stripped under `noStartNumber` and with every active symbol stripped
under `noStartSymbol`. -/
def firstCharPoolOf (s : PasswordSettings) : List Char :=
  if s.noStartSymbol && !(symbolsSetOf s).isEmpty then
    (if s.noStartNumber then (charsetOf s).filter (fun c => !c.isDigit)
     else charsetOf s).filter (fun c => !(symbolsSetOf s).contains c)
  else
    (if s.noStartNumber then (charsetOf s).filter (fun c => !c.isDigit)
     else charsetOf s)

/-- `validateConstraints`: note the code tests the no-duplicate condition
first and the first-char pool second. -/
def validateConstraints (length : Nat) (charset firstCharPool : List Char)
    (noDuplicate : Bool) : Except GenError Unit :=
  if noDuplicate && charset.length < length then
    .error (.notEnoughUniqueChars charset.length length)
  else if firstCharPool.length = 0 then
    .error .emptyFirstCharPool
  else .ok ()

/-- The full validation prefix of `generatePasswords`: empty-charset check,
then empty-first-char-pool check, then `validateConstraints`. -/
def validate (length : Nat) (charset firstCharPool : List Char)
    (noDuplicate : Bool) : Except GenError Unit :=
  if charset.isEmpty then .error .emptyCharset
  else if firstCharPool.isEmpty then .error .emptyFirstCharPool
  else validateConstraints length charset firstCharPool noDuplicate

/-- `secureRandom(max)` at cursor `k` over draw environment `g`. -/
def secureRandom (g : Nat → Nat) (k max : Nat) : Nat := g k % max

/-- `filterSimilarChars`: drop every character of `similar` (identity when
`similar` is empty, matching the falsy-string guard). -/
def filterSimilarChars (charset similar : List Char) : List Char :=
  if similar.isEmpty then charset
  else charset.filter (fun c => !similar.contains c)

/-- `isValidChar`: the candidate is rejected on a used-set hit, a sequential
code-point neighbour under `noSequential`, or a symbol once the quota is
reached; otherwise accepted.  `usedChars`/`symbolsSet` are `none` exactly
when the JS values are `null`. -/
def isValidChar (c : Char) (prevChar : Option Char)
    (usedChars symbolsSet : Option (List Char))
    (symbolCount maxSymbols : Nat) (noSequential : Bool) : Bool :=
  if (match usedChars with
      | some u => u.contains c
      | none => false) then false
  else if noSequential &&
      (match prevChar with
       | some p => ((c.toNat : Int) - (p.toNat : Int)).natAbs == 1
       | none => false) then false
  else if (match symbolsSet with
      | some s => s.contains c
      | none => false) && symbolCount ≥ maxSymbols then false
  else true

/-- The bounded fast path of `getValidChar`: up to `attempts` independent
uniform draws from `charset`, returning the first valid one. -/
def tryFastAttempts (g : Nat → Nat) (charset : List Char) (prevChar : Option Char)
    (usedChars symbolsSet : Option (List Char)) (symbolCount maxSymbols : Nat)
    (noSequential : Bool) (attempts k : Nat) : Option Char × Nat :=
  match attempts with
  | 0 => (none, k)
  | n + 1 =>
    if isValidChar (charset.getD (secureRandom g k charset.length) ' ') prevChar usedChars
        symbolsSet symbolCount maxSymbols noSequential then
      (some (charset.getD (secureRandom g k charset.length) ' '), k + 1)
    else
      tryFastAttempts g charset prevChar usedChars symbolsSet symbolCount maxSymbols
        noSequential n (k + 1)

/-- The `hasStrictConstraints` heuristic of `getValidChar` (`size > length*0.5`
is `2*size > length` exactly, and `symbolCount >= maxSymbols*0.9` is
`10*symbolCount ≥ 9*maxSymbols` for doubles in range). -/
def hasStrictConstraints (charset : List Char) (usedChars symbolsSet : Option (List Char))
    (symbolCount maxSymbols : Nat) (noSequential : Bool) : Bool :=
  (match usedChars with
   | some u => 2 * u.length > charset.length
   | none => false)
  || (match symbolsSet with
      | some _ => 10 * symbolCount ≥ 9 * maxSymbols
      | none => false)
  || noSequential

/-- The `validChars` string built by the slow path of `getValidChar`: the
alphabet characters passing the validity predicate, in alphabet order. -/
def validChars (charset : List Char) (prevChar : Option Char)
    (usedChars symbolsSet : Option (List Char)) (symbolCount maxSymbols : Nat)
    (noSequential : Bool) : List Char :=
  charset.filter
    (fun c => isValidChar c prevChar usedChars symbolsSet symbolCount maxSymbols noSequential)

/-- `getValidChar`: heuristic strict-constraints test, then a 5-attempt fast
path, then the deterministic filter of the alphabet with a uniform draw from
the valid subset (`none` when that subset is empty). -/
def getValidChar (g : Nat → Nat) (charset : List Char) (prevChar : Option Char)
    (usedChars symbolsSet : Option (List Char)) (symbolCount maxSymbols : Nat)
    (noSequential : Bool) (k : Nat) : Option Char × Nat :=
  match (if hasStrictConstraints charset usedChars symbolsSet symbolCount maxSymbols noSequential
         then (none, k)
         else tryFastAttempts g charset prevChar usedChars symbolsSet symbolCount
           maxSymbols noSequential 5 k) with
  | (some c, k1) => (some c, k1)
  | (none, k1) =>
    if (validChars charset prevChar usedChars symbolsSet symbolCount maxSymbols
        noSequential).length = 0 then (none, k1)
    else
      (some ((validChars charset prevChar usedChars symbolsSet symbolCount maxSymbols
          noSequential).getD
        (secureRandom g k1 (validChars charset prevChar usedChars symbolsSet symbolCount
          maxSymbols noSequential).length) ' '), k1 + 1)

/-- Swap of two positions of a list (`[chars[i], chars[j]] = [chars[j], chars[i]]`). -/
def listSwap (l : List Char) (i j : Nat) : List Char :=
  match l.get? i, l.get? j with
  | some a, some b => (l.set i b).set j a
  | _, _ => l

/-- The Fisher–Yates loop of `generateNoDuplicatePassword`, counting `i`
down from `l.length - 1` to `1`, drawing `j` uniformly from `[0, i]`. -/
def fisherYatesAux (g : Nat → Nat) (l : List Char) (i k : Nat) : List Char × Nat :=
  match i with
  | 0 => (l, k)
  | i' + 1 =>
    let j := secureRandom g k (i' + 2)
    fisherYatesAux g (listSwap l (i' + 1) j) i' (k + 1)

def fisherYates (g : Nat → Nat) (l : List Char) (k : Nat) : List Char × Nat :=
  fisherYatesAux g l (l.length - 1) k

/-- `generateNoDuplicatePassword`: first char drawn from the pool, then the
charset with *every* occurrence of that char removed is shuffled and the
first `length - 1` shuffled elements follow the first char.  JS
`slice(0, length - 1)` drops the last element when `length = 0` (negative
end index), hence the special case. -/
def noDupRemainder (charset : List Char) (firstChar : Char) : List Char :=
  charset.filter (fun c => c != firstChar)

def generateNoDuplicatePassword (g : Nat → Nat) (length : Nat)
    (charset firstCharPool : List Char) (k : Nat) : List Char × Nat :=
  (firstCharPool.getD (secureRandom g k firstCharPool.length) ' ' ::
    (if length = 0 then
      (fisherYates g (noDupRemainder charset
        (firstCharPool.getD (secureRandom g k firstCharPool.length) ' ')) (k + 1)).1.dropLast
     else
      (fisherYates g (noDupRemainder charset
        (firstCharPool.getD (secureRandom g k firstCharPool.length) ' ')) (k + 1)).1.take
        (length - 1)),
   (fisherYates g (noDupRemainder charset
     (firstCharPool.getD (secureRandom g k firstCharPool.length) ' ')) (k + 1)).2)

/-- The position-filling loop of `generateSinglePassword` (positions
`1 .. length-1`); `acc` holds the characters chosen so far in reverse,
`pos` is the 1-based position reported on exhaustion (the JS message uses
`i + 1`). -/
def fillLoop (g : Nat → Nat) (charset : List Char)
    (usedChars symbolsSet : Option (List Char)) (maxSymbols : Nat)
    (noSequential : Bool) (acc : List Char) (prevChar : Char)
    (symbolCount remaining pos k : Nat) : Except GenError (List Char) × Nat :=
  match remaining with
  | 0 => (.ok acc.reverse, k)
  | r + 1 =>
    match getValidChar g charset (some prevChar) usedChars symbolsSet symbolCount
        maxSymbols noSequential k with
    | (none, k') => (.error (.characterExhaustion pos), k')
    | (some c, k') =>
      fillLoop g charset (usedChars.map (fun u => u ++ [c])) symbolsSet maxSymbols
        noSequential (c :: acc) c
        (if (match symbolsSet with
             | some s => s.contains c
             | none => false) then symbolCount + 1 else symbolCount)
        r (pos + 1) k'

/-- The charset actually sampled by `generateSinglePassword`: re-filtered
against `similarChars` when `noSimilar` is set. -/
def effCharset (charset : List Char) (noSimilar : Bool) : List Char :=
  if noSimilar then filterSimilarChars charset similarChars else charset

/-- The `symbolsSet2` lookup set of `generateSinglePassword` (`null` for an
empty symbols string). -/
def symbolsSet2Of (symbolsSet : List Char) : Option (List Char) :=
  if symbolsSet.isEmpty then none else some symbolsSet

/-- `generateSinglePassword`: similar-character refiltering with its two
empty-pool errors, dispatch to the duplicate-free fast path, otherwise first
character from the pool followed by the filling loop.  `maxSymbols` is only
consulted when the symbols option is `some` (the JS `Infinity` case is the
`none` branch of every match). -/
def generateSinglePassword (g : Nat → Nat) (length : Nat)
    (charset firstCharPool : List Char) (noSimilar noDuplicate noSequential : Bool)
    (symbolsSet : List Char) (k : Nat) : Except GenError (List Char) × Nat :=
  if noSimilar && (effCharset charset noSimilar).isEmpty then
    (.error .emptyCharsetAfterSimilar, k)
  else if noSimilar && (effCharset firstCharPool noSimilar).isEmpty then
    (.error .emptyFirstCharPoolAfterSimilar, k)
  else if noDuplicate && !noSequential && symbolsSet.isEmpty then
    (.ok (generateNoDuplicatePassword g length (effCharset charset noSimilar)
        (effCharset firstCharPool noSimilar) k).1,
     (generateNoDuplicatePassword g length (effCharset charset noSimilar)
        (effCharset firstCharPool noSimilar) k).2)
  else
    match getValidChar g (effCharset firstCharPool noSimilar) none
        (if noDuplicate then some [] else none) (symbolsSet2Of symbolsSet) 0
        ((length + 9) / 10) noSequential k with
    | (none, k1) => (.error .failedStartChar, k1)
    | (some firstChar, k1) =>
      fillLoop g (effCharset charset noSimilar)
        ((if noDuplicate then some ([] : List Char) else none).map (fun u => u ++ [firstChar]))
        (symbolsSet2Of symbolsSet) ((length + 9) / 10) noSequential [firstChar] firstChar
        (if (match symbolsSet2Of symbolsSet with
             | some s => s.contains firstChar
             | none => false) then 1 else 0)
        (length - 1) 2 k1

/-- The `amount`-times loop of `generatePasswords`, aborting on the first
error with no partial list. -/
def batchLoop (g : Nat → Nat) (length : Nat) (charset firstCharPool : List Char)
    (noSimilar noDuplicate noSequential : Bool) (symbolsSet : List Char)
    (n : Nat) (acc : List (List Char)) (k : Nat) :
    Except GenError (List (List Char)) × Nat :=
  match n with
  | 0 => (.ok acc.reverse, k)
  | n + 1 =>
    match generateSinglePassword g length charset firstCharPool noSimilar
        noDuplicate noSequential symbolsSet k with
    | (.error e, k') => (.error e, k')
    | (.ok pwd, k') =>
      batchLoop g length charset firstCharPool noSimilar noDuplicate noSequential
        symbolsSet n (pwd :: acc) k'

/-- `generatePasswords` from a settings record: charset and pool
construction, the validation prefix, then the batch loop. -/
def generatePasswords (g : Nat → Nat) (s : PasswordSettings) (k : Nat) :
    Except GenError (List (List Char)) × Nat :=
  match validate s.length (charsetOf s) (firstCharPoolOf s) s.noDuplicate with
  | .error e => (.error e, k)
  | .ok _ =>
    batchLoop g s.length (charsetOf s) (firstCharPoolOf s) s.noSimilar
      s.noDuplicate s.noSequential (symbolsSetOf s) s.amount [] k

/-! ### Permutation facts about the Fisher–Yates shuffle -/

/-- Prepending the element stored at position `m` to `t.set m a` permutes
prepending `a` to `t`. -/
theorem cons_set_perm : ∀ (t : List Char) (m : Nat) (a b : Char),
    t.get? m = some b → List.Perm (b :: t.set m a) (a :: t) := by
  intro t
  induction t with
  | nil => intro m a b h; simp at h
  | cons x t' ih =>
    intro m a b h
    cases m with
    | zero =>
      simp only [List.get?_cons_zero, Option.some.injEq] at h
      subst h
      simpa using List.Perm.swap a x t'
    | succ m' =>
      simp only [List.get?_cons_succ] at h
      simp only [List.set_cons_succ]
      have h1 : List.Perm (b :: x :: t'.set m' a) (x :: b :: t'.set m' a) :=
        List.Perm.swap x b _
      have h2 : List.Perm (x :: b :: t'.set m' a) (x :: (a :: t')) :=
        List.Perm.cons x (ih m' a b h)
      have h3 : List.Perm (x :: a :: t') (a :: x :: t') := List.Perm.swap a x t'
      exact (h1.trans h2).trans h3

/-- A double `set` realising a swap of stored values is a permutation. -/
theorem set_set_perm : ∀ (l : List Char) (i j : Nat) (a b : Char),
    l.get? i = some a → l.get? j = some b →
    List.Perm ((l.set i b).set j a) l := by
  intro l
  induction l with
  | nil => intro i j a b hi _; simp at hi
  | cons x t ih =>
    intro i j a b hi hj
    cases i with
    | zero =>
      simp only [List.get?_cons_zero, Option.some.injEq] at hi
      subst hi
      cases j with
      | zero =>
        simp only [List.get?_cons_zero, Option.some.injEq] at hj
        subst hj
        simp
      | succ j' =>
        simp only [List.get?_cons_succ] at hj
        simp only [List.set_cons_zero, List.set_cons_succ]
        exact cons_set_perm t j' x b hj
    | succ i' =>
      simp only [List.get?_cons_succ] at hi
      cases j with
      | zero =>
        simp only [List.get?_cons_zero, Option.some.injEq] at hj
        subst hj
        simp only [List.set_cons_succ, List.set_cons_zero]
        exact cons_set_perm t i' x a hi
      | succ j' =>
        simp only [List.get?_cons_succ] at hj
        simp only [List.set_cons_succ]
        exact List.Perm.cons x (ih i' j' a b hi hj)

/-- Swapping two positions is a permutation. -/
theorem listSwap_perm (l : List Char) (i j : Nat) : List.Perm (listSwap l i j) l := by
  unfold listSwap
  cases hi : l.get? i with
  | none => exact List.Perm.refl l
  | some a =>
    cases hj : l.get? j with
    | none => exact List.Perm.refl l
    | some b => exact set_set_perm l i j a b hi hj

/-- The Fisher–Yates loop permutes its input. -/
theorem fisherYatesAux_perm (g : Nat → Nat) :
    ∀ (i : Nat) (l : List Char) (k : Nat),
    List.Perm (fisherYatesAux g l i k).1 l := by
  intro i
  induction i with
  | zero => intro l k; exact List.Perm.refl l
  | succ i' ih =>
    intro l k
    exact (ih (listSwap l (i' + 1) (secureRandom g k (i' + 2))) (k + 1)).trans
      (listSwap_perm l (i' + 1) (secureRandom g k (i' + 2)))

/-- The shuffled remainder is a permutation of the remainder pool. -/
theorem fisherYates_perm (g : Nat → Nat) (l : List Char) (k : Nat) :
    List.Perm (fisherYates g l k).1 l :=
  fisherYatesAux_perm g (l.length - 1) l k

/-- The Fisher–Yates loop consumes exactly `i` random draws. -/
theorem fisherYatesAux_cursor (g : Nat → Nat) :
    ∀ (i : Nat) (l : List Char) (k : Nat),
    (fisherYatesAux g l i k).2 = k + i := by
  intro i
  induction i with
  | zero => intro l k; rfl
  | succ i' ih =>
    intro l k
    have := ih (listSwap l (i' + 1) (secureRandom g k (i' + 2))) (k + 1)
    simpa [fisherYatesAux, this] using by omega

/-! ### Facts about the character selector -/

/-- An accepted candidate is not in the used set. -/
theorem isValidChar_not_used {c : Char} {prevChar : Option Char} {u symbolsSet : Option (List Char)}
    {symbolCount maxSymbols : Nat} {noSequential : Bool} {ul : List Char}
    (hu : u = some ul)
    (h : isValidChar c prevChar u symbolsSet symbolCount maxSymbols noSequential = true) :
    c ∉ ul := by
  subst hu
  intro hmem
  unfold isValidChar at h
  rw [if_pos] at h
  · exact Bool.false_ne_true h
  · simpa using hmem

/-- An accepted candidate that is a symbol was accepted below the quota. -/
theorem isValidChar_symbol_lt {c : Char} {prevChar : Option Char} {u : Option (List Char)}
    {symbolCount maxSymbols : Nat} {noSequential : Bool} {sl : List Char}
    (h : isValidChar c prevChar u (some sl) symbolCount maxSymbols noSequential = true)
    (hc : sl.contains c = true) : symbolCount < maxSymbols := by
  by_contra hge
  unfold isValidChar at h
  split at h
  · exact Bool.false_ne_true h
  · split at h
    · exact Bool.false_ne_true h
    · rw [if_pos] at h
      · exact Bool.false_ne_true h
      · simp only [hc, Bool.true_and, ge_iff_le, decide_eq_true_eq]
        omega

/-- A non-empty list's `getD` at an index reduced modulo its length is a member. -/
theorem getD_mod_mem (l : List Char) (x : Nat) (d : Char) (h : l ≠ []) :
    l.getD (x % l.length) d ∈ l := by
  have hlen : 0 < l.length := List.length_pos.mpr h
  have hlt : x % l.length < l.length := Nat.mod_lt x hlen
  rw [List.getD_eq_getElem?_getD, List.getElem?_eq_getElem hlt]
  exact List.getElem_mem hlt

/-- A successful fast-path attempt returns a character passing the validity
predicate, drawn from the alphabet when the alphabet is non-empty. -/
theorem tryFastAttempts_some (g : Nat → Nat) (charset : List Char) (prevChar : Option Char)
    (usedChars symbolsSet : Option (List Char)) (symbolCount maxSymbols : Nat)
    (noSequential : Bool) :
    ∀ (attempts k : Nat) (c : Char) (k' : Nat),
    tryFastAttempts g charset prevChar usedChars symbolsSet symbolCount maxSymbols
      noSequential attempts k = (some c, k') →
    isValidChar c prevChar usedChars symbolsSet symbolCount maxSymbols noSequential = true ∧
    (charset ≠ [] → c ∈ charset) := by
  intro attempts
  induction attempts with
  | zero => intro k c k' h; simp [tryFastAttempts] at h
  | succ n ih =>
    intro k c k' h
    unfold tryFastAttempts at h
    split at h
    · rename_i hvalid
      have hc : charset.getD (secureRandom g k charset.length) ' ' = c :=
        Option.some.inj (congrArg Prod.fst h)
      rw [hc] at hvalid
      refine ⟨hvalid, fun hne => ?_⟩
      rw [← hc]
      exact getD_mod_mem charset (g k) ' ' hne
    · exact ih (k + 1) c k' h

/-- If no character of the alphabet is valid, every fast-path attempt fails. -/
theorem tryFastAttempts_none (g : Nat → Nat) (charset : List Char) (prevChar : Option Char)
    (usedChars symbolsSet : Option (List Char)) (symbolCount maxSymbols : Nat)
    (noSequential : Bool)
    (hall : ∀ c ∈ charset,
      isValidChar c prevChar usedChars symbolsSet symbolCount maxSymbols noSequential = false)
    (hne : charset ≠ []) :
    ∀ (attempts k : Nat),
    tryFastAttempts g charset prevChar usedChars symbolsSet symbolCount maxSymbols
      noSequential attempts k = (none, k + attempts) := by
  intro attempts
  induction attempts with
  | zero => intro k; rfl
  | succ n ih =>
    intro k
    unfold tryFastAttempts
    rw [if_neg]
    · rw [ih (k + 1)]
      congr 1
      omega
    · have hmem := getD_mod_mem charset (g k) ' ' hne
      rw [show secureRandom g k charset.length = g k % charset.length from rfl,
        hall _ hmem]
      simp

/-- The fast path consumes between zero and `attempts` draws. -/
theorem tryFastAttempts_cursor (g : Nat → Nat) (charset : List Char) (prevChar : Option Char)
    (usedChars symbolsSet : Option (List Char)) (symbolCount maxSymbols : Nat)
    (noSequential : Bool) :
    ∀ (attempts k : Nat),
    k ≤ (tryFastAttempts g charset prevChar usedChars symbolsSet symbolCount maxSymbols
      noSequential attempts k).2 ∧
    (tryFastAttempts g charset prevChar usedChars symbolsSet symbolCount maxSymbols
      noSequential attempts k).2 ≤ k + attempts := by
  intro attempts
  induction attempts with
  | zero => intro k; exact ⟨Nat.le_refl k, Nat.le_add_right k 0⟩
  | succ n ih =>
    intro k
    unfold tryFastAttempts
    split
    · exact ⟨Nat.le_succ k, by omega⟩
    · have := ih (k + 1)
      exact ⟨by omega, by omega⟩

/-- A character returned by `getValidChar` passes the validity predicate and,
for a non-empty alphabet, belongs to the valid subset of the alphabet. -/
theorem getValidChar_some (g : Nat → Nat) (charset : List Char) (prevChar : Option Char)
    (usedChars symbolsSet : Option (List Char)) (symbolCount maxSymbols : Nat)
    (noSequential : Bool) (k : Nat) (c : Char) (k' : Nat)
    (h : getValidChar g charset prevChar usedChars symbolsSet symbolCount maxSymbols
      noSequential k = (some c, k')) :
    isValidChar c prevChar usedChars symbolsSet symbolCount maxSymbols noSequential = true ∧
    (charset ≠ [] → c ∈ charset) := by
  unfold getValidChar at h
  split at h
  · rename_i c1 k1 hfast
    split at hfast
    · exact absurd (congrArg Prod.fst hfast) (by simp)
    · have hsome := tryFastAttempts_some g charset prevChar usedChars symbolsSet symbolCount
        maxSymbols noSequential 5 k c1 k1 hfast
      have hc : c1 = c := Option.some.inj (congrArg Prod.fst h)
      rw [hc] at hsome
      exact hsome
  · rename_i k1 hfast
    split at h
    · exact absurd (congrArg Prod.fst h) (by simp)
    · rename_i hlen
      have hrec : validChars charset prevChar usedChars symbolsSet symbolCount maxSymbols
          noSequential ≠ [] := by
        intro hempty
        rw [hempty] at hlen
        exact hlen rfl
      have hmem : c ∈ validChars charset prevChar usedChars symbolsSet symbolCount maxSymbols
          noSequential := by
        have hgd := getD_mod_mem (validChars charset prevChar usedChars symbolsSet symbolCount
          maxSymbols noSequential) (g k1) ' ' hrec
        have hc : (validChars charset prevChar usedChars symbolsSet symbolCount maxSymbols
            noSequential).getD
            (secureRandom g k1 (validChars charset prevChar usedChars symbolsSet symbolCount
              maxSymbols noSequential).length) ' ' = c :=
          Option.some.inj (congrArg Prod.fst h)
        rw [← hc]
        exact hgd
      have hsplit := List.mem_filter.mp hmem
      exact ⟨hsplit.2, fun _ => hsplit.1⟩

/-- For a non-empty alphabet, `getValidChar` fails exactly when the valid
subset of the alphabet is empty. -/
theorem getValidChar_none_iff (g : Nat → Nat) (charset : List Char) (prevChar : Option Char)
    (usedChars symbolsSet : Option (List Char)) (symbolCount maxSymbols : Nat)
    (noSequential : Bool) (k : Nat) (hne : charset ≠ []) :
    (getValidChar g charset prevChar usedChars symbolsSet symbolCount maxSymbols
      noSequential k).1 = none ↔
    validChars charset prevChar usedChars symbolsSet symbolCount maxSymbols noSequential = [] := by
  constructor
  · intro h
    by_contra hvc
    unfold getValidChar at h
    split at h
    · simp at h
    · rename_i k1 hfast
      split at h
      · rename_i hlen
        exact hvc (List.length_eq_zero.mp hlen)
      · simp at h
  · intro hvc
    have hall : ∀ c ∈ charset,
        isValidChar c prevChar usedChars symbolsSet symbolCount maxSymbols noSequential = false := by
      intro c hc
      by_contra hval
      have : c ∈ validChars charset prevChar usedChars symbolsSet symbolCount maxSymbols
          noSequential :=
        List.mem_filter.mpr ⟨hc, Bool.of_not_eq_false hval⟩
      rw [hvc] at this
      exact List.not_mem_nil c this
    unfold getValidChar
    split
    · rename_i c1 k1 hfast
      split at hfast
      · simp at hfast
      · rw [tryFastAttempts_none g charset prevChar usedChars symbolsSet symbolCount
          maxSymbols noSequential hall hne 5 k] at hfast
        simp at hfast
    · rw [if_pos (by rw [hvc]; rfl)]

/-- `getValidChar` consumes at most six random draws. -/
theorem getValidChar_cursor (g : Nat → Nat) (charset : List Char) (prevChar : Option Char)
    (usedChars symbolsSet : Option (List Char)) (symbolCount maxSymbols : Nat)
    (noSequential : Bool) (k : Nat) :
    k ≤ (getValidChar g charset prevChar usedChars symbolsSet symbolCount maxSymbols
      noSequential k).2 ∧
    (getValidChar g charset prevChar usedChars symbolsSet symbolCount maxSymbols
      noSequential k).2 ≤ k + 6 := by
  unfold getValidChar
  have hcur := tryFastAttempts_cursor g charset prevChar usedChars symbolsSet symbolCount
    maxSymbols noSequential 5 k
  split
  · rename_i c1 k1 hfast
    split at hfast
    · simp at hfast
    · have h2 : k1 = (tryFastAttempts g charset prevChar usedChars symbolsSet symbolCount
          maxSymbols noSequential 5 k).2 := by
        rw [hfast]
      constructor
      · simp only [h2]; omega
      · simp only [h2]; omega
  · rename_i k1 hfast
    have h2 : k1 = (if hasStrictConstraints charset usedChars symbolsSet symbolCount
        maxSymbols noSequential then ((none : Option Char), k)
        else tryFastAttempts g charset prevChar usedChars symbolsSet symbolCount
          maxSymbols noSequential 5 k).2 := by
      rw [hfast]
    have hk1 : k ≤ k1 ∧ k1 ≤ k + 5 := by
      rw [h2]
      split
      · exact ⟨Nat.le_refl k, by omega⟩
      · exact ⟨hcur.1, hcur.2⟩
    split
    · exact ⟨hk1.1, by omega⟩
    · exact ⟨by simp; omega, by simp; omega⟩

/-! ### Facts about the position-filling loop -/

/-- On success the filling loop returns as many characters as it was asked
for on top of the accumulator. -/
theorem fillLoop_ok_length (g : Nat → Nat) (charset : List Char)
    (symbolsSet : Option (List Char)) (maxSymbols : Nat) (noSequential : Bool) :
    ∀ (remaining : Nat) (usedChars : Option (List Char)) (acc : List Char)
      (prevChar : Char) (symbolCount pos k : Nat) (res : List Char) (k' : Nat),
    fillLoop g charset usedChars symbolsSet maxSymbols noSequential acc prevChar
      symbolCount remaining pos k = (.ok res, k') →
    res.length = acc.length + remaining := by
  intro remaining
  induction remaining with
  | zero =>
    intro usedChars acc prevChar symbolCount pos k res k' h
    have : acc.reverse = res := by
      simpa [fillLoop] using congrArg Prod.fst h
    rw [← this]
    simp
  | succ r ih =>
    intro usedChars acc prevChar symbolCount pos k res k' h
    unfold fillLoop at h
    split at h
    · simp at h
    · rename_i c k1 hget
      have := ih _ (c :: acc) c _ _ _ res k' h
      simp only [List.length_cons] at this
      omega

/-- The filling loop only ever fails with a character-exhaustion error. -/
theorem fillLoop_error_shape (g : Nat → Nat) (charset : List Char)
    (symbolsSet : Option (List Char)) (maxSymbols : Nat) (noSequential : Bool) :
    ∀ (remaining : Nat) (usedChars : Option (List Char)) (acc : List Char)
      (prevChar : Char) (symbolCount pos k : Nat) (e : GenError) (k' : Nat),
    fillLoop g charset usedChars symbolsSet maxSymbols noSequential acc prevChar
      symbolCount remaining pos k = (.error e, k') →
    ∃ p, e = .characterExhaustion p := by
  intro remaining
  induction remaining with
  | zero =>
    intro usedChars acc prevChar symbolCount pos k e k' h
    simp [fillLoop] at h
  | succ r ih =>
    intro usedChars acc prevChar symbolCount pos k e k' h
    unfold fillLoop at h
    split at h
    · rename_i k1 hget
      refine ⟨pos, ?_⟩
      have := congrArg Prod.fst h
      simpa using this.symm
    · rename_i c k1 hget
      exact ih _ (c :: acc) c _ _ _ e k' h

/-- On success with an active used-set, the filling loop preserves
duplicate-freeness of the accumulated password. -/
theorem fillLoop_ok_nodup (g : Nat → Nat) (charset : List Char)
    (symbolsSet : Option (List Char)) (maxSymbols : Nat) (noSequential : Bool) :
    ∀ (remaining : Nat) (ul acc : List Char) (prevChar : Char)
      (symbolCount pos k : Nat) (res : List Char) (k' : Nat),
    acc.Nodup → (∀ a ∈ acc, a ∈ ul) →
    fillLoop g charset (some ul) symbolsSet maxSymbols noSequential acc prevChar
      symbolCount remaining pos k = (.ok res, k') →
    res.Nodup := by
  intro remaining
  induction remaining with
  | zero =>
    intro ul acc prevChar symbolCount pos k res k' hacc _ h
    have : acc.reverse = res := by
      simpa [fillLoop] using congrArg Prod.fst h
    rw [← this]
    simpa using hacc
  | succ r ih =>
    intro ul acc prevChar symbolCount pos k res k' hacc hsub h
    unfold fillLoop at h
    split at h
    · simp at h
    · rename_i c k1 hget
      have hvalid := (getValidChar_some g charset (some prevChar) (some ul) symbolsSet
        symbolCount maxSymbols noSequential k c k1 hget).1
      have hnotin : c ∉ ul := isValidChar_not_used rfl hvalid
      have h' : fillLoop g charset (some (ul ++ [c])) symbolsSet maxSymbols noSequential
          (c :: acc) c
          (if (match symbolsSet with
               | some s => s.contains c
               | none => false) then symbolCount + 1 else symbolCount) r (pos + 1) k1 =
          (.ok res, k') := h
      refine ih (ul ++ [c]) (c :: acc) c _ _ _ res k' ?_ ?_ h'
      · exact List.nodup_cons.mpr ⟨fun hc => hnotin (hsub c hc), hacc⟩
      · intro a ha
        rcases List.mem_cons.mp ha with rfl | ha'
        · exact List.mem_append_right ul (List.mem_singleton_self a)
        · exact List.mem_append_left _ (hsub a ha')

/-- On success with an active symbols set, the filling loop keeps the symbol
count aligned with the accumulator and below the quota. -/
theorem fillLoop_ok_symbolCount (g : Nat → Nat) (charset : List Char)
    (sl : List Char) (maxSymbols : Nat) (noSequential : Bool) :
    ∀ (remaining : Nat) (usedChars : Option (List Char)) (acc : List Char)
      (prevChar : Char) (symbolCount pos k : Nat) (res : List Char) (k' : Nat),
    symbolCount = acc.countP (fun a => sl.contains a) →
    symbolCount ≤ maxSymbols →
    fillLoop g charset usedChars (some sl) maxSymbols noSequential acc prevChar
      symbolCount remaining pos k = (.ok res, k') →
    res.countP (fun a => sl.contains a) ≤ maxSymbols := by
  intro remaining
  induction remaining with
  | zero =>
    intro usedChars acc prevChar symbolCount pos k res k' hcount hle h
    have : acc.reverse = res := by
      simpa [fillLoop] using congrArg Prod.fst h
    rw [← this]
    rw [List.countP_reverse]
    omega
  | succ r ih =>
    intro usedChars acc prevChar symbolCount pos k res k' hcount hle h
    unfold fillLoop at h
    split at h
    · simp at h
    · rename_i c k1 hget
      have hvalid := (getValidChar_some g charset (some prevChar) usedChars (some sl)
        symbolCount maxSymbols noSequential k c k1 hget).1
      have h' : fillLoop g charset (usedChars.map (fun u => u ++ [c])) (some sl) maxSymbols
          noSequential (c :: acc) c
          (if sl.contains c then symbolCount + 1 else symbolCount) r (pos + 1) k1 =
          (.ok res, k') := h
      have hcountc : (c :: acc).countP (fun a => sl.contains a) =
          acc.countP (fun a => sl.contains a) + (if sl.contains c then 1 else 0) := by
        rw [List.countP_cons]
      by_cases hsym : sl.contains c = true
      · have hlt : symbolCount < maxSymbols := isValidChar_symbol_lt hvalid hsym
        rw [if_pos hsym] at h'
        refine ih _ (c :: acc) c (symbolCount + 1) _ _ res k' ?_ (by omega) h'
        rw [hcountc, if_pos hsym]
        omega
      · rw [if_neg hsym] at h'
        refine ih _ (c :: acc) c symbolCount _ _ res k' ?_ hle h'
        rw [hcountc, if_neg hsym]
        omega

/-- The filling loop consumes at most six draws per remaining position. -/
theorem fillLoop_cursor (g : Nat → Nat) (charset : List Char)
    (symbolsSet : Option (List Char)) (maxSymbols : Nat) (noSequential : Bool) :
    ∀ (remaining : Nat) (usedChars : Option (List Char)) (acc : List Char)
      (prevChar : Char) (symbolCount pos k : Nat),
    (fillLoop g charset usedChars symbolsSet maxSymbols noSequential acc prevChar
      symbolCount remaining pos k).2 ≤ k + 6 * remaining := by
  intro remaining
  induction remaining with
  | zero => intro usedChars acc prevChar symbolCount pos k; simp [fillLoop]
  | succ r ih =>
    intro usedChars acc prevChar symbolCount pos k
    unfold fillLoop
    have hcur := getValidChar_cursor g charset (some prevChar) usedChars symbolsSet
      symbolCount maxSymbols noSequential k
    split
    · rename_i k1 hget
      have : k1 = (getValidChar g charset (some prevChar) usedChars symbolsSet
          symbolCount maxSymbols noSequential k).2 := by rw [hget]
      simp only []
      omega
    · rename_i c k1 hget
      have hk1 : k1 = (getValidChar g charset (some prevChar) usedChars symbolsSet
          symbolCount maxSymbols noSequential k).2 := by rw [hget]
      have := ih (usedChars.map (fun u => u ++ [c])) (c :: acc) c
        (if (match symbolsSet with
             | some s => s.contains c
             | none => false) then symbolCount + 1 else symbolCount) (pos + 1) k1
      omega

/-! ### Facts about the duplicate-free fast path -/

/-- The chosen first character never survives into the remainder pool. -/
theorem not_mem_noDupRemainder (charset : List Char) (firstChar : Char) :
    firstChar ∉ noDupRemainder charset firstChar := by
  intro h
  have := (List.mem_filter.mp h).2
  simp at this

/-- The remainder pool of a duplicate-free charset drops exactly one
character. -/
theorem noDupRemainder_length : ∀ (charset : List Char) (firstChar : Char),
    charset.Nodup → firstChar ∈ charset →
    (noDupRemainder charset firstChar).length = charset.length - 1 := by
  intro charset
  induction charset with
  | nil => intro firstChar _ hmem; simp at hmem
  | cons x t ih =>
    intro firstChar hnodup hmem
    unfold noDupRemainder
    by_cases hx : x = firstChar
    · subst hx
      have hnot : x ∉ t := (List.nodup_cons.mp hnodup).1
      rw [List.filter_cons_of_neg (by simp)]
      have : t.filter (fun c => c != x) = t :=
        List.filter_eq_self.mpr (fun a ha => by
          simp only [bne_iff_ne, ne_eq, decide_eq_true_eq]
          exact fun hax => hnot (hax ▸ ha))
      rw [this]
      simp
    · have hmem' : firstChar ∈ t := by
        rcases List.mem_cons.mp hmem with h | h
        · exact absurd h.symm hx
        · exact h
      rw [List.filter_cons_of_pos (by simp [hx])]
      have ht := ih firstChar (List.nodup_cons.mp hnodup).2 hmem'
      unfold noDupRemainder at ht
      have hpos : 1 ≤ t.length := List.length_pos.mpr (List.ne_nil_of_mem hmem')
      simp only [List.length_cons, ht]
      omega

/-- Structure of `generateNoDuplicatePassword` for a positive length: some
first character from the pool, followed by a prefix of a permutation of the
remainder pool. -/
theorem generateNoDuplicatePassword_struct (g : Nat → Nat) (len : Nat)
    (charset firstCharPool : List Char) (k : Nat)
    (hpool : firstCharPool ≠ []) (hlen : 1 ≤ len) :
    ∃ (firstChar : Char) (rest : List Char), firstChar ∈ firstCharPool ∧
      List.Perm rest (noDupRemainder charset firstChar) ∧
      (generateNoDuplicatePassword g len charset firstCharPool k).1 =
        firstChar :: rest.take (len - 1) := by
  refine ⟨firstCharPool.getD (secureRandom g k firstCharPool.length) ' ',
    (fisherYates g (noDupRemainder charset
      (firstCharPool.getD (secureRandom g k firstCharPool.length) ' ')) (k + 1)).1,
    getD_mod_mem firstCharPool (g k) ' ' hpool,
    fisherYates_perm g _ (k + 1), ?_⟩
  have h0 : ¬ len = 0 := by omega
  simp only [generateNoDuplicatePassword, h0, if_false]

/-- Length of a fast-path password: the requested length capped by the
charset size, for a duplicate-free charset containing the pool. -/
theorem generateNoDuplicatePassword_length (g : Nat → Nat) (len : Nat)
    (charset firstCharPool : List Char) (k : Nat)
    (hpool : firstCharPool ≠ []) (hsub : firstCharPool ⊆ charset)
    (hnodup : charset.Nodup) (hlen : 1 ≤ len) :
    (generateNoDuplicatePassword g len charset firstCharPool k).1.length =
      min len charset.length := by
  obtain ⟨fc, rest, hfc, hperm, heq⟩ :=
    generateNoDuplicatePassword_struct g len charset firstCharPool k hpool hlen
  rw [heq]
  have hrest : rest.length = charset.length - 1 := by
    rw [hperm.length_eq]
    exact noDupRemainder_length charset fc hnodup (hsub hfc)
  have hcs : 1 ≤ charset.length := by
    rcases firstCharPool with _ | ⟨a, t⟩
    · exact absurd rfl hpool
    · exact List.length_pos.mpr (List.ne_nil_of_mem (hsub (List.mem_cons_self a t)))
  simp only [List.length_cons, List.length_take, hrest]
  omega

/-- A fast-path password over a duplicate-free charset has no repeated
characters (any length, either slice branch). -/
theorem generateNoDuplicatePassword_nodup (g : Nat → Nat) (len : Nat)
    (charset firstCharPool : List Char) (k : Nat) (hnodup : charset.Nodup) :
    (generateNoDuplicatePassword g len charset firstCharPool k).1.Nodup := by
  unfold generateNoDuplicatePassword
  have hperm := fisherYates_perm g (noDupRemainder charset
    (firstCharPool.getD (secureRandom g k firstCharPool.length) ' ')) (k + 1)
  have hXnodup : (fisherYates g (noDupRemainder charset
      (firstCharPool.getD (secureRandom g k firstCharPool.length) ' ')) (k + 1)).1.Nodup :=
    (hperm.nodup_iff).mpr (List.Nodup.filter _ hnodup)
  have hsub : (if len = 0 then
      (fisherYates g (noDupRemainder charset
        (firstCharPool.getD (secureRandom g k firstCharPool.length) ' ')) (k + 1)).1.dropLast
     else
      (fisherYates g (noDupRemainder charset
        (firstCharPool.getD (secureRandom g k firstCharPool.length) ' ')) (k + 1)).1.take
        (len - 1)).Sublist
      (fisherYates g (noDupRemainder charset
        (firstCharPool.getD (secureRandom g k firstCharPool.length) ' ')) (k + 1)).1 := by
    split
    · exact List.dropLast_sublist _
    · exact List.take_sublist _ _
  refine List.nodup_cons.mpr ⟨?_, List.Nodup.sublist hsub hXnodup⟩
  intro hmem
  exact not_mem_noDupRemainder charset _ (hperm.mem_iff.mp (hsub.subset hmem))

/-- Draw consumption of the fast path: one draw for the first character and
one per swap of the shuffle. -/
theorem generateNoDuplicatePassword_cursor (g : Nat → Nat) (len : Nat)
    (charset firstCharPool : List Char) (k : Nat) :
    (generateNoDuplicatePassword g len charset firstCharPool k).2 ≤
      k + 1 + charset.length := by
  unfold generateNoDuplicatePassword fisherYates
  rw [fisherYatesAux_cursor]
  have hle : (noDupRemainder charset
      (firstCharPool.getD (secureRandom g k firstCharPool.length) ' ')).length ≤
      charset.length := List.length_filter_le _ _
  omega

/-! ### Branch equations and facts for `generateSinglePassword` -/

/-- The effective charset is never longer than the raw one. -/
theorem effCharset_length_le (charset : List Char) (noSimilar : Bool) :
    (effCharset charset noSimilar).length ≤ charset.length := by
  unfold effCharset filterSimilarChars
  split
  · split
    · exact Nat.le_refl _
    · exact List.length_filter_le _ _
  · exact Nat.le_refl _

/-- Fast-path branch equation. -/
theorem gsp_fast_eq (g : Nat → Nat) (len : Nat) (charset firstCharPool : List Char)
    (noSimilar noDuplicate noSequential : Bool) (symbolsSet : List Char) (k : Nat)
    (hc1 : (noSimilar && (effCharset charset noSimilar).isEmpty) = false)
    (hc2 : (noSimilar && (effCharset firstCharPool noSimilar).isEmpty) = false)
    (hc3 : (noDuplicate && !noSequential && symbolsSet.isEmpty) = true) :
    generateSinglePassword g len charset firstCharPool noSimilar noDuplicate noSequential
      symbolsSet k =
    (.ok (generateNoDuplicatePassword g len (effCharset charset noSimilar)
        (effCharset firstCharPool noSimilar) k).1,
     (generateNoDuplicatePassword g len (effCharset charset noSimilar)
        (effCharset firstCharPool noSimilar) k).2) := by
  unfold generateSinglePassword
  rw [if_neg (by rw [hc1]; exact Bool.false_ne_true),
    if_neg (by rw [hc2]; exact Bool.false_ne_true), if_pos hc3]

/-- General-path branch equation. -/
theorem gsp_general_eq (g : Nat → Nat) (len : Nat) (charset firstCharPool : List Char)
    (noSimilar noDuplicate noSequential : Bool) (symbolsSet : List Char) (k : Nat)
    (hc1 : (noSimilar && (effCharset charset noSimilar).isEmpty) = false)
    (hc2 : (noSimilar && (effCharset firstCharPool noSimilar).isEmpty) = false)
    (hc3 : (noDuplicate && !noSequential && symbolsSet.isEmpty) = false) :
    generateSinglePassword g len charset firstCharPool noSimilar noDuplicate noSequential
      symbolsSet k =
    (match getValidChar g (effCharset firstCharPool noSimilar) none
        (if noDuplicate then some [] else none) (symbolsSet2Of symbolsSet) 0
        ((len + 9) / 10) noSequential k with
     | (none, k1) => (.error .failedStartChar, k1)
     | (some firstChar, k1) =>
       fillLoop g (effCharset charset noSimilar)
         ((if noDuplicate then some ([] : List Char) else none).map (fun u => u ++ [firstChar]))
         (symbolsSet2Of symbolsSet) ((len + 9) / 10) noSequential [firstChar] firstChar
         (if (match symbolsSet2Of symbolsSet with
              | some s => s.contains firstChar
              | none => false) then 1 else 0)
         (len - 1) 2 k1) := by
  unfold generateSinglePassword
  rw [if_neg (by rw [hc1]; exact Bool.false_ne_true),
    if_neg (by rw [hc2]; exact Bool.false_ne_true),
    if_neg (by rw [hc3]; exact Bool.false_ne_true)]

/-- A successful single password has exactly the requested length, provided
the fast path (when eligible) has a duplicate-free effective charset at
least as long as the request. -/
theorem generateSinglePassword_ok_length (g : Nat → Nat) (len : Nat)
    (charset firstCharPool : List Char) (noSimilar noDuplicate noSequential : Bool)
    (symbolsSet : List Char) (k : Nat) (p : List Char) (k' : Nat)
    (hlen : 1 ≤ len)
    (hpool0 : noSimilar = false → firstCharPool ≠ [])
    (hfast : (noDuplicate && !noSequential && symbolsSet.isEmpty) = true →
      (effCharset firstCharPool noSimilar ⊆ effCharset charset noSimilar ∧
       (effCharset charset noSimilar).Nodup ∧
       len ≤ (effCharset charset noSimilar).length))
    (h : generateSinglePassword g len charset firstCharPool noSimilar noDuplicate
      noSequential symbolsSet k = (.ok p, k')) :
    p.length = len := by
  by_cases hc1 : (noSimilar && (effCharset charset noSimilar).isEmpty) = true
  · unfold generateSinglePassword at h
    rw [if_pos hc1] at h
    exact absurd (congrArg Prod.fst h) (by simp)
  · by_cases hc2 : (noSimilar && (effCharset firstCharPool noSimilar).isEmpty) = true
    · unfold generateSinglePassword at h
      rw [if_neg hc1, if_pos hc2] at h
      exact absurd (congrArg Prod.fst h) (by simp)
    · by_cases hc3 : (noDuplicate && !noSequential && symbolsSet.isEmpty) = true
      · rw [gsp_fast_eq g len charset firstCharPool noSimilar noDuplicate noSequential
          symbolsSet k (Bool.not_eq_true _ ▸ hc1) (Bool.not_eq_true _ ▸ hc2) hc3] at h
        obtain ⟨hsub, hnodup, hle⟩ := hfast hc3
        have hpool : effCharset firstCharPool noSimilar ≠ [] := by
          cases hsim : noSimilar
          · have := hpool0 hsim
            unfold effCharset
            rw [if_neg (by decide)]
            exact this
          · intro hempty
            apply hc2
            rw [hsim, hempty]
            rfl
        have hpe : p = (generateNoDuplicatePassword g len (effCharset charset noSimilar)
            (effCharset firstCharPool noSimilar) k).1 :=
          (Except.ok.inj (congrArg Prod.fst h)).symm
        rw [hpe, generateNoDuplicatePassword_length g len _ _ k hpool hsub hnodup hlen]
        omega
      · rw [gsp_general_eq g len charset firstCharPool noSimilar noDuplicate noSequential
          symbolsSet k (Bool.not_eq_true _ ▸ hc1) (Bool.not_eq_true _ ▸ hc2)
          (Bool.not_eq_true _ ▸ hc3)] at h
        split at h
        · exact absurd (congrArg Prod.fst h) (by simp)
        · rename_i fc k1 hget
          have := fillLoop_ok_length g (effCharset charset noSimilar)
            (symbolsSet2Of symbolsSet) ((len + 9) / 10) noSequential (len - 1)
            ((if noDuplicate then some ([] : List Char) else none).map (fun u => u ++ [fc]))
            [fc] fc
            (if (match symbolsSet2Of symbolsSet with
                 | some s => s.contains fc
                 | none => false) then 1 else 0) 2 k1 p k' h
          simp only [List.length_cons, List.length_nil] at this
          omega

/-- A successful single password with `noDuplicate` set has pairwise
distinct characters. -/
theorem generateSinglePassword_ok_nodup (g : Nat → Nat) (len : Nat)
    (charset firstCharPool : List Char) (noSimilar noSequential : Bool)
    (symbolsSet : List Char) (k : Nat) (p : List Char) (k' : Nat)
    (hfast : noSequential = false → symbolsSet.isEmpty = true →
      (effCharset charset noSimilar).Nodup)
    (h : generateSinglePassword g len charset firstCharPool noSimilar true
      noSequential symbolsSet k = (.ok p, k')) :
    p.Nodup := by
  by_cases hc1 : (noSimilar && (effCharset charset noSimilar).isEmpty) = true
  · unfold generateSinglePassword at h
    rw [if_pos hc1] at h
    exact absurd (congrArg Prod.fst h) (by simp)
  · by_cases hc2 : (noSimilar && (effCharset firstCharPool noSimilar).isEmpty) = true
    · unfold generateSinglePassword at h
      rw [if_neg hc1, if_pos hc2] at h
      exact absurd (congrArg Prod.fst h) (by simp)
    · by_cases hc3 : (true && !noSequential && symbolsSet.isEmpty) = true
      · rw [gsp_fast_eq g len charset firstCharPool noSimilar true noSequential
          symbolsSet k (Bool.not_eq_true _ ▸ hc1) (Bool.not_eq_true _ ▸ hc2) hc3] at h
        have hnodup : (effCharset charset noSimilar).Nodup := by
          simp only [Bool.true_and, Bool.and_eq_true, Bool.not_eq_true'] at hc3
          exact hfast hc3.1 hc3.2
        have hpe : p = (generateNoDuplicatePassword g len (effCharset charset noSimilar)
            (effCharset firstCharPool noSimilar) k).1 :=
          (Except.ok.inj (congrArg Prod.fst h)).symm
        rw [hpe]
        exact generateNoDuplicatePassword_nodup g len _ _ k hnodup
      · rw [gsp_general_eq g len charset firstCharPool noSimilar true noSequential
          symbolsSet k (Bool.not_eq_true _ ▸ hc1) (Bool.not_eq_true _ ▸ hc2)
          (Bool.not_eq_true _ ▸ hc3)] at h
        split at h
        · exact absurd (congrArg Prod.fst h) (by simp)
        · rename_i fc k1 hget
          exact fillLoop_ok_nodup g (effCharset charset noSimilar)
            (symbolsSet2Of symbolsSet) ((len + 9) / 10) noSequential (len - 1)
            ([] ++ [fc]) [fc] fc _ 2 k1 p k'
            (List.nodup_cons.mpr ⟨List.not_mem_nil fc, List.nodup_nil⟩)
            (fun a ha => by simpa using ha) h

/-- A successful single password with a non-empty symbols set respects the
symbol quota `⌈len/10⌉`. -/
theorem generateSinglePassword_ok_symbolCount (g : Nat → Nat) (len : Nat)
    (charset firstCharPool : List Char) (noSimilar noDuplicate noSequential : Bool)
    (symbolsSet : List Char) (k : Nat) (p : List Char) (k' : Nat)
    (hsym : symbolsSet ≠ [])
    (h : generateSinglePassword g len charset firstCharPool noSimilar noDuplicate
      noSequential symbolsSet k = (.ok p, k')) :
    p.countP (fun a => symbolsSet.contains a) ≤ (len + 9) / 10 := by
  have hne : symbolsSet.isEmpty = false := by
    cases symbolsSet with
    | nil => exact absurd rfl hsym
    | cons a t => rfl
  have hs2 : symbolsSet2Of symbolsSet = some symbolsSet := by
    unfold symbolsSet2Of
    rw [hne]
    rfl
  by_cases hc1 : (noSimilar && (effCharset charset noSimilar).isEmpty) = true
  · unfold generateSinglePassword at h
    rw [if_pos hc1] at h
    exact absurd (congrArg Prod.fst h) (by simp)
  · by_cases hc2 : (noSimilar && (effCharset firstCharPool noSimilar).isEmpty) = true
    · unfold generateSinglePassword at h
      rw [if_neg hc1, if_pos hc2] at h
      exact absurd (congrArg Prod.fst h) (by simp)
    · have hc3 : (noDuplicate && !noSequential && symbolsSet.isEmpty) = false := by
        rw [hne]
        simp
      rw [gsp_general_eq g len charset firstCharPool noSimilar noDuplicate noSequential
        symbolsSet k (Bool.not_eq_true _ ▸ hc1) (Bool.not_eq_true _ ▸ hc2)
        (Bool.not_eq_true _ ▸ hc3)] at h
      rw [hs2] at h
      split at h
      · exact absurd (congrArg Prod.fst h) (by simp)
      · rename_i fc k1 hget
        have hvalid := (getValidChar_some g (effCharset firstCharPool noSimilar) none
          (if noDuplicate then some [] else none) (some symbolsSet) 0 ((len + 9) / 10)
          noSequential k fc k1 hget).1
        have hcnt1 : (if symbolsSet.contains fc then 1 else 0) =
            List.countP (fun a => symbolsSet.contains a) [fc] := by
          rw [List.countP_cons]
          simp
        have hle1 : (if symbolsSet.contains fc then 1 else 0) ≤ (len + 9) / 10 := by
          by_cases hfc : symbolsSet.contains fc = true
          · rw [if_pos hfc]
            exact isValidChar_symbol_lt hvalid hfc
          · rw [if_neg hfc]
            exact Nat.zero_le _
        exact fillLoop_ok_symbolCount g (effCharset charset noSimilar) symbolsSet
          ((len + 9) / 10) noSequential (len - 1) _ [fc] fc _ 2 k1 p k' hcnt1 hle1 h

/-- Draw consumption of one password generation. -/
theorem generateSinglePassword_cursor (g : Nat → Nat) (len : Nat)
    (charset firstCharPool : List Char) (noSimilar noDuplicate noSequential : Bool)
    (symbolsSet : List Char) (k : Nat) :
    (generateSinglePassword g len charset firstCharPool noSimilar noDuplicate
      noSequential symbolsSet k).2 ≤ k + 6 * len + charset.length + 7 := by
  by_cases hc1 : (noSimilar && (effCharset charset noSimilar).isEmpty) = true
  · unfold generateSinglePassword
    rw [if_pos hc1]
    omega
  · by_cases hc2 : (noSimilar && (effCharset firstCharPool noSimilar).isEmpty) = true
    · unfold generateSinglePassword
      rw [if_neg hc1, if_pos hc2]
      omega
    · by_cases hc3 : (noDuplicate && !noSequential && symbolsSet.isEmpty) = true
      · rw [gsp_fast_eq g len charset firstCharPool noSimilar noDuplicate noSequential
          symbolsSet k (Bool.not_eq_true _ ▸ hc1) (Bool.not_eq_true _ ▸ hc2) hc3]
        have h1 := generateNoDuplicatePassword_cursor g len (effCharset charset noSimilar)
          (effCharset firstCharPool noSimilar) k
        have h2 := effCharset_length_le charset noSimilar
        omega
      · rw [gsp_general_eq g len charset firstCharPool noSimilar noDuplicate noSequential
          symbolsSet k (Bool.not_eq_true _ ▸ hc1) (Bool.not_eq_true _ ▸ hc2)
          (Bool.not_eq_true _ ▸ hc3)]
        have hget := getValidChar_cursor g (effCharset firstCharPool noSimilar) none
          (if noDuplicate then some [] else none) (symbolsSet2Of symbolsSet) 0
          ((len + 9) / 10) noSequential k
        split
        · rename_i k1 hg
          have : k1 = (getValidChar g (effCharset firstCharPool noSimilar) none
              (if noDuplicate then some [] else none) (symbolsSet2Of symbolsSet) 0
              ((len + 9) / 10) noSequential k).2 := by rw [hg]
          show k1 ≤ k + 6 * len + charset.length + 7
          omega
        · rename_i fc k1 hg
          have hk1 : k1 = (getValidChar g (effCharset firstCharPool noSimilar) none
              (if noDuplicate then some [] else none) (symbolsSet2Of symbolsSet) 0
              ((len + 9) / 10) noSequential k).2 := by rw [hg]
          have hfill := fillLoop_cursor g (effCharset charset noSimilar)
            (symbolsSet2Of symbolsSet) ((len + 9) / 10) noSequential (len - 1)
            ((if noDuplicate then some ([] : List Char) else none).map (fun u => u ++ [fc]))
            [fc] fc
            (if (match symbolsSet2Of symbolsSet with
                 | some s => s.contains fc
                 | none => false) then 1 else 0) 2 k1
          omega

/-! ### Facts about the batch loop and the full pipeline -/

/-- On success the batch loop yields one password per remaining iteration,
each satisfying any property enjoyed by all successful single passwords. -/
theorem batchLoop_ok (g : Nat → Nat) (len : Nat) (charset firstCharPool : List Char)
    (noSimilar noDuplicate noSequential : Bool) (symbolsSet : List Char)
    (P : List Char → Prop)
    (hstep : ∀ (k : Nat) (p : List Char) (k' : Nat),
      generateSinglePassword g len charset firstCharPool noSimilar noDuplicate
        noSequential symbolsSet k = (.ok p, k') → P p) :
    ∀ (n : Nat) (acc : List (List Char)) (k : Nat) (ps : List (List Char)) (k' : Nat),
    (∀ a ∈ acc, P a) →
    batchLoop g len charset firstCharPool noSimilar noDuplicate noSequential symbolsSet
      n acc k = (.ok ps, k') →
    ps.length = acc.length + n ∧ ∀ p ∈ ps, P p := by
  intro n
  induction n with
  | zero =>
    intro acc k ps k' hacc h
    have hps : acc.reverse = ps := by
      simpa [batchLoop] using congrArg Prod.fst h
    constructor
    · rw [← hps]; simp
    · intro p hp
      rw [← hps] at hp
      exact hacc p (List.mem_reverse.mp hp)
  | succ n ih =>
    intro acc k ps k' hacc h
    unfold batchLoop at h
    split at h
    · simp at h
    · rename_i pwd k1 hgen
      have := ih (pwd :: acc) k1 ps k'
        (fun a ha => by
          rcases List.mem_cons.mp ha with rfl | ha'
          · exact hstep k a k1 hgen
          · exact hacc a ha') h
      simp only [List.length_cons] at this
      exact ⟨by omega, this.2⟩

/-- Draw consumption of the batch loop. -/
theorem batchLoop_cursor (g : Nat → Nat) (len : Nat) (charset firstCharPool : List Char)
    (noSimilar noDuplicate noSequential : Bool) (symbolsSet : List Char) :
    ∀ (n : Nat) (acc : List (List Char)) (k : Nat),
    (batchLoop g len charset firstCharPool noSimilar noDuplicate noSequential symbolsSet
      n acc k).2 ≤ k + n * (6 * len + charset.length + 7) := by
  intro n
  induction n with
  | zero => intro acc k; simp [batchLoop]
  | succ n ih =>
    intro acc k
    unfold batchLoop
    have hgen := generateSinglePassword_cursor g len charset firstCharPool noSimilar
      noDuplicate noSequential symbolsSet k
    split
    · rename_i e k1 hg
      have : k1 = (generateSinglePassword g len charset firstCharPool noSimilar
          noDuplicate noSequential symbolsSet k).2 := by rw [hg]
      have hmul : k + (6 * len + charset.length + 7) ≤
          k + (n + 1) * (6 * len + charset.length + 7) := by
        have : 1 * (6 * len + charset.length + 7) ≤
            (n + 1) * (6 * len + charset.length + 7) :=
          Nat.mul_le_mul_right _ (by omega)
        omega
      omega
    · rename_i pwd k1 hg
      have hk1 : k1 = (generateSinglePassword g len charset firstCharPool noSimilar
          noDuplicate noSequential symbolsSet k).2 := by rw [hg]
      have := ih (pwd :: acc) k1
      have hmul : (n + 1) * (6 * len + charset.length + 7) =
          n * (6 * len + charset.length + 7) + (6 * len + charset.length + 7) := by ring
      omega

/-- Unfolding of `generatePasswords` on successful validation. -/
theorem generatePasswords_eq_batch (g : Nat → Nat) (s : PasswordSettings) (k : Nat)
    (hval : validate s.length (charsetOf s) (firstCharPoolOf s) s.noDuplicate = .ok ()) :
    generatePasswords g s k =
      batchLoop g s.length (charsetOf s) (firstCharPoolOf s) s.noSimilar s.noDuplicate
        s.noSequential (symbolsSetOf s) s.amount [] k := by
  unfold generatePasswords
  rw [hval]

/-- The symbols set is empty exactly when symbols are disabled. -/
theorem symbolsSetOf_empty_iff (s : PasswordSettings) :
    symbolsSetOf s = [] ↔ s.includeSymbols = false := by
  unfold symbolsSetOf
  cases hs : s.includeSymbols
  · simp
  · rw [if_pos rfl]
    constructor
    · intro h
      by_cases hc : s.customSymbols.length > 0
      · rw [if_pos hc] at h
        rw [h] at hc
        simp at hc
      · rw [if_neg hc] at h
        exact absurd h (by decide)
    · intro h
      exact absurd h (by decide)

/-- Without symbols the built charset is duplicate-free (the category
strings are internally duplicate-free and pairwise disjoint). -/
theorem charsetOf_nodup (s : PasswordSettings) (h : s.includeSymbols = false) :
    (charsetOf s).Nodup := by
  unfold charsetOf
  rw [h]
  cases hn : s.includeNumbers <;> cases hl : s.includeLowercase <;>
    cases hu : s.includeUppercase <;>
    simp only [if_pos, if_neg, Bool.false_eq_true, not_false_eq_true, if_false, if_true] <;>
    decide

/-- The first-character pool only contains charset characters. -/
theorem firstCharPoolOf_subset (s : PasswordSettings) :
    firstCharPoolOf s ⊆ charsetOf s := by
  unfold firstCharPoolOf
  intro a ha
  split at ha
  · have ha2 := (List.mem_filter.mp ha).1
    split at ha2
    · exact (List.mem_filter.mp ha2).1
    · exact ha2
  · split at ha
    · exact (List.mem_filter.mp ha).1
    · exact ha

/-- Similarity filtering preserves inclusions between pools. -/
theorem effCharset_subset {pool charset : List Char} (b : Bool) (h : pool ⊆ charset) :
    effCharset pool b ⊆ effCharset charset b := by
  unfold effCharset filterSimilarChars
  cases b
  · rw [if_neg (by decide), if_neg (by decide)]
    exact h
  · rw [if_pos rfl, if_pos rfl,
      if_neg (show ¬similarChars.isEmpty = true by decide),
      if_neg (show ¬similarChars.isEmpty = true by decide)]
    intro a ha
    have hm := List.mem_filter.mp ha
    exact List.mem_filter.mpr ⟨h hm.1, hm.2⟩

/-- Similarity filtering preserves duplicate-freeness. -/
theorem effCharset_nodup {charset : List Char} (b : Bool) (h : charset.Nodup) :
    (effCharset charset b).Nodup := by
  unfold effCharset filterSimilarChars
  cases b
  · rw [if_neg (by decide)]
    exact h
  · rw [if_pos rfl, if_neg (show ¬similarChars.isEmpty = true by decide)]
    exact List.Nodup.filter _ h

/-- A passing validation certifies: non-empty charset, non-empty pool, and
(under `noDuplicate`) a charset at least as long as the request. -/
theorem validate_ok_facts (length : Nat) (charset firstCharPool : List Char)
    (noDuplicate : Bool)
    (h : validate length charset firstCharPool noDuplicate = .ok ()) :
    charset ≠ [] ∧ firstCharPool ≠ [] ∧
      (noDuplicate = true → length ≤ charset.length) := by
  unfold validate validateConstraints at h
  by_cases h1 : charset.isEmpty = true
  · rw [if_pos h1] at h
    exact absurd h (by simp)
  · rw [if_neg h1] at h
    by_cases h2 : firstCharPool.isEmpty = true
    · rw [if_pos h2] at h
      exact absurd h (by simp)
    · rw [if_neg h2] at h
      refine ⟨by simpa using h1, by simpa using h2, ?_⟩
      intro hdup
      by_cases h3 : charset.length < length
      · rw [if_pos (show (noDuplicate && decide (charset.length < length)) = true by
          rw [hdup]; simpa using h3)] at h
        exact absurd h (by simp)
      · omega

/-! ### Concrete draw environments and settings records used in evaluations -/

/-- Draw environment returning the cursor itself. -/
def drawSeq : Nat → Nat := fun n => n

/-- Draw environment returning zero. -/
def drawZero : Nat → Nat := fun _ => 0

/-- Custom symbols `"@"` only, length 3: validation passes but the symbol
quota (1) makes position 1 unsatisfiable. -/
def exhaustSettings : PasswordSettings :=
  ⟨3, 1, false, false, false, true, ['@'], false, false, false, false, false⟩

/-- Numbers only, `noSimilar` and `noDuplicate`, length 9: the filtered
charset `"23456789"` has 8 characters. -/
def shortSettings : PasswordSettings :=
  ⟨9, 1, true, false, false, false, [], false, false, true, true, false⟩

/-- Numbers only, `noDuplicate`, length 5, amount 2: a feasible fast-path
request. -/
def demoDupSettings : PasswordSettings :=
  ⟨5, 2, true, false, false, false, [], false, false, false, true, false⟩

/-- Custom symbols `"01"` only with `noSimilar`: validation passes on the
unfiltered pools, similarity filtering then empties the charset. -/
def similarSettings : PasswordSettings :=
  ⟨4, 1, false, false, false, true, ['0', '1'], false, false, true, false, false⟩

/-- Lowercase plus default symbols, length 20. -/
def symbolSettings : PasswordSettings :=
  ⟨20, 1, false, true, false, true, [], false, false, false, false, false⟩

/-! ### Claim theorems -/

/-- C4: the validation pipeline checks, in order: (a) charset non-empty,
else `EmptyCharsetError`; (b) first-char pool non-empty, else
`EmptyFirstCharPoolError`; (c) under `noDuplicate`, `length ≤ |Charset|`,
else `NotEnoughUniqueCharsError` carrying available and required; an input
failing an earlier check receives that earlier error. -/
theorem validate_check_order (len : Nat) (cs pool : List Char) (nd : Bool) :
    (validate len cs pool nd = .error .emptyCharset ↔ cs = []) ∧
    (validate len cs pool nd = .error .emptyFirstCharPool ↔ (cs ≠ [] ∧ pool = [])) ∧
    (∀ a r, validate len cs pool nd = .error (.notEnoughUniqueChars a r) ↔
      (cs ≠ [] ∧ pool ≠ [] ∧ nd = true ∧ cs.length < len ∧ a = cs.length ∧ r = len)) ∧
    (validate len cs pool nd = .ok () ↔
      (cs ≠ [] ∧ pool ≠ [] ∧ (nd = true → len ≤ cs.length))) := by
  unfold validate validateConstraints
  by_cases h1 : cs.isEmpty = true
  · have hcs : cs = [] := by simpa using h1
    rw [if_pos h1]
    refine ⟨by simp [hcs], by simp [hcs], fun a r => by simp [hcs], by simp [hcs]⟩
  · have hcs : cs ≠ [] := by simpa using h1
    rw [if_neg h1]
    by_cases h2 : pool.isEmpty = true
    · have hpool : pool = [] := by simpa using h2
      rw [if_pos h2]
      refine ⟨by simp [hcs], by simp [hcs, hpool], fun a r => by simp [hpool], by simp [hpool]⟩
    · have hpool : pool ≠ [] := by simpa using h2
      rw [if_neg h2]
      by_cases h3 : (nd && decide (cs.length < len)) = true
      · have hnd : nd = true ∧ cs.length < len := by simpa using h3
        rw [if_pos h3]
        refine ⟨by simp [hcs], by simp [hcs, hpool], fun a r => ?_, ?_⟩
        · constructor
          · intro h
            have hinj := Except.error.inj h
            refine ⟨hcs, hpool, hnd.1, hnd.2, ?_, ?_⟩
            · cases hinj; rfl
            · cases hinj; rfl
          · rintro ⟨-, -, -, -, rfl, rfl⟩
            rfl
        · constructor
          · intro h
            exact absurd h (by simp)
          · rintro ⟨-, -, hd⟩
            have := hd hnd.1
            omega
      · have hnd : nd = true → len ≤ cs.length := by
          intro hd
          rw [hd] at h3
          simp only [Bool.true_and, decide_eq_true_eq] at h3
          omega
        rw [if_neg h3, if_neg (by simpa using hpool)]
        refine ⟨by simp [hcs], by simp [hcs, hpool], fun a r => ?_, ?_⟩
        · constructor
          · intro h
            exact absurd h (by simp)
          · rintro ⟨-, -, hd, hlt, -, -⟩
            have := hnd hd
            omega
        · exact ⟨fun _ => ⟨hcs, hpool, hnd⟩, fun _ => rfl⟩

/-- C5: the selector's validity check rejects candidate `c` exactly when
(`noDuplicate` and `c` is used) or (`noSequential` with a previous character
at code-point distance 1) or (`c` is a symbol and the quota is reached);
otherwise it accepts. -/
theorem isValidChar_rejects_iff (c : Char) (p : Option Char) (noDup : Bool)
    (U S : List Char) (n Q : Nat) (noSeq : Bool) :
    isValidChar c p (if noDup then some U else none) (symbolsSet2Of S) n Q noSeq = false ↔
      ((noDup = true ∧ c ∈ U) ∨
       (noSeq = true ∧ ∃ pc, p = some pc ∧
         ((c.toNat : Int) - (pc.toNat : Int)).natAbs = 1) ∨
       (c ∈ S ∧ n ≥ Q)) := by
  unfold isValidChar symbolsSet2Of
  cases noDup <;> cases noSeq <;> cases p <;> by_cases hS : S.isEmpty = true <;>
    simp_all [List.isEmpty_iff] <;> tauto

/-- C6: for a non-empty alphabet, character selection fails exactly when the
deterministically built valid subset is empty; any returned character
belongs to that subset; and a per-position failure makes the filling loop
abort the whole password with a `CharacterExhaustionError`. -/
theorem getValidChar_failure_iff (g : Nat → Nat) (charset : List Char)
    (prevChar : Option Char) (usedChars symbolsSet : Option (List Char))
    (symbolCount maxSymbols : Nat) (noSequential : Bool) (k : Nat)
    (hne : charset ≠ []) :
    ((getValidChar g charset prevChar usedChars symbolsSet symbolCount maxSymbols
        noSequential k).1 = none ↔
      validChars charset prevChar usedChars symbolsSet symbolCount maxSymbols
        noSequential = []) ∧
    (∀ c, (getValidChar g charset prevChar usedChars symbolsSet symbolCount maxSymbols
        noSequential k).1 = some c →
      c ∈ validChars charset prevChar usedChars symbolsSet symbolCount maxSymbols
        noSequential) ∧
    (∀ (acc : List Char) (prevc : Char) (used2 syms2 : Option (List Char))
       (cnt maxS r pos k2 k3 : Nat),
      getValidChar g charset (some prevc) used2 syms2 cnt maxS noSequential k2 =
        (none, k3) →
      fillLoop g charset used2 syms2 maxS noSequential acc prevc cnt (r + 1) pos k2 =
        (.error (.characterExhaustion pos), k3)) := by
  refine ⟨getValidChar_none_iff g charset prevChar usedChars symbolsSet symbolCount
    maxSymbols noSequential k hne, ?_, ?_⟩
  · intro c hc
    cases hres : getValidChar g charset prevChar usedChars symbolsSet symbolCount
        maxSymbols noSequential k with
    | mk c1 k1 =>
      rw [hres] at hc
      subst hc
      have := getValidChar_some g charset prevChar usedChars symbolsSet symbolCount
        maxSymbols noSequential k c k1 hres
      exact List.mem_filter.mpr ⟨this.2 hne, this.1⟩
  · intro acc prevc used2 syms2 cnt maxS r pos k2 k3 hget
    unfold fillLoop
    rw [hget]

/-- C6 witness: the selector over the two-character alphabet `"ab"` with no
active constraints. -/
theorem getValidChar_failure_iff_witness :
    (['a', 'b'] : List Char) ≠ [] ∧
    (((getValidChar drawZero ['a', 'b'] none none none 0 0 false 0).1 = none ↔
       validChars ['a', 'b'] none none none 0 0 false = []) ∧
     (∀ c, (getValidChar drawZero ['a', 'b'] none none none 0 0 false 0).1 = some c →
       c ∈ validChars ['a', 'b'] none none none 0 0 false) ∧
     (∀ (acc : List Char) (prevc : Char) (used2 syms2 : Option (List Char))
        (cnt maxS r pos k2 k3 : Nat),
       getValidChar drawZero ['a', 'b'] (some prevc) used2 syms2 cnt maxS false k2 =
         (none, k3) →
       fillLoop drawZero ['a', 'b'] used2 syms2 maxS false acc prevc cnt (r + 1) pos k2 =
         (.error (.characterExhaustion pos), k3))) :=
  ⟨by decide,
    getValidChar_failure_iff drawZero ['a', 'b'] none none none 0 0 false 0 (by decide)⟩

/-- C9: character selection consumes at most six random draws (five
fast-path attempts plus the single draw from the filtered subset), and a
whole batch consumes a number of draws linear in `amount`, `length` and the
charset size — the embedded generation functions are total by construction. -/
theorem generation_work_bounded :
    (∀ (g : Nat → Nat) (charset : List Char) (prevChar : Option Char)
       (usedChars symbolsSet : Option (List Char)) (symbolCount maxSymbols : Nat)
       (noSequential : Bool) (k : Nat),
      (getValidChar g charset prevChar usedChars symbolsSet symbolCount maxSymbols
        noSequential k).2 ≤ k + 6) ∧
    (∀ (g : Nat → Nat) (s : PasswordSettings) (k : Nat),
      (generatePasswords g s k).2 ≤
        k + s.amount * (6 * s.length + (charsetOf s).length + 7)) := by
  constructor
  · intro g charset prevChar usedChars symbolsSet symbolCount maxSymbols noSequential k
    exact (getValidChar_cursor g charset prevChar usedChars symbolsSet symbolCount
      maxSymbols noSequential k).2
  · intro g s k
    unfold generatePasswords
    split
    · exact Nat.le_add_right k _
    · exact batchLoop_cursor g s.length (charsetOf s) (firstCharPoolOf s) s.noSimilar
        s.noDuplicate s.noSequential (symbolsSetOf s) s.amount [] k

/-- C2 counterexample: calling the fast path with charset `"aab"` and pool
`"a"` removes *both* occurrences of the drawn first character `'a'`, so the
remainder pool has 1 element (not `|Charset| - 1 = 2`) and the password for
`length = 3` comes out as `"ab"` with only 2 characters. -/
theorem fastpath_first_occurrence_cex :
    (generateNoDuplicatePassword drawZero 3 ['a', 'a', 'b'] ['a'] 0).1 = ['a', 'b'] ∧
    (['a', 'a', 'b'] : List Char).length - 1 = 2 := by
  exact ⟨rfl, rfl⟩

/-- C2 (amended): the fast path draws a first character from the pool,
removes every occurrence of its value from the charset to form the
remainder pool (exactly one element fewer only when the charset is
duplicate-free), Fisher–Yates-shuffles the remainder (a permutation), and
returns the first character followed by the first `length - 1` shuffled
elements. -/
theorem fastpath_shuffle_structure (g : Nat → Nat) (len : Nat)
    (charset firstCharPool : List Char) (k : Nat)
    (hpool : firstCharPool ≠ []) (hlen : 1 ≤ len) :
    ∃ (firstChar : Char) (rest : List Char), firstChar ∈ firstCharPool ∧
      List.Perm rest (noDupRemainder charset firstChar) ∧
      (generateNoDuplicatePassword g len charset firstCharPool k).1 =
        firstChar :: rest.take (len - 1) ∧
      (charset.Nodup → firstChar ∈ charset → rest.length = charset.length - 1) := by
  obtain ⟨fc, rest, h1, h2, h3⟩ :=
    generateNoDuplicatePassword_struct g len charset firstCharPool k hpool hlen
  refine ⟨fc, rest, h1, h2, h3, fun hn hm => ?_⟩
  rw [h2.length_eq]
  exact noDupRemainder_length charset fc hn hm

/-- Witness for the amended C2 on charset `"abc"`, pool `"a"`, length 3. -/
theorem fastpath_shuffle_structure_witness :
    (['a'] : List Char) ≠ [] ∧ 1 ≤ 3 ∧
    (∃ (firstChar : Char) (rest : List Char), firstChar ∈ (['a'] : List Char) ∧
      List.Perm rest (noDupRemainder ['a', 'b', 'c'] firstChar) ∧
      (generateNoDuplicatePassword drawZero 3 ['a', 'b', 'c'] ['a'] 0).1 =
        firstChar :: rest.take (3 - 1) ∧
      ((['a', 'b', 'c'] : List Char).Nodup → firstChar ∈ (['a', 'b', 'c'] : List Char) →
        rest.length = (['a', 'b', 'c'] : List Char).length - 1)) :=
  ⟨by decide, by decide,
    fastpath_shuffle_structure drawZero 3 ['a', 'b', 'c'] ['a'] 0 (by decide) (by decide)⟩

/-- C7: with `noDuplicate` set, every password of a successful batch has
pairwise-distinct characters, whichever path produced it. -/
theorem noDuplicate_all_distinct (g : Nat → Nat) (s : PasswordSettings) (k : Nat)
    (ps : List (List Char)) (k' : Nat) (hdup : s.noDuplicate = true)
    (h : generatePasswords g s k = (.ok ps, k')) :
    ∀ p ∈ ps, p.Nodup := by
  unfold generatePasswords at h
  split at h
  · exact absurd (congrArg Prod.fst h) (by simp)
  · rw [hdup] at h
    refine (batchLoop_ok g s.length (charsetOf s) (firstCharPoolOf s) s.noSimilar true
      s.noSequential (symbolsSetOf s) (fun p => p.Nodup) ?_ s.amount [] k ps k'
      (by simp) h).2
    intro k0 p k0' hgen
    refine generateSinglePassword_ok_nodup g s.length (charsetOf s) (firstCharPoolOf s)
      s.noSimilar s.noSequential (symbolsSetOf s) k0 p k0' ?_ hgen
    intro _ hsemp
    have hsyms : symbolsSetOf s = [] := by simpa using hsemp
    exact effCharset_nodup s.noSimilar
      (charsetOf_nodup s ((symbolsSetOf_empty_iff s).mp hsyms))

/-- C7 witness: two feasible duplicate-free passwords over the digits. -/
theorem noDuplicate_all_distinct_witness :
    demoDupSettings.noDuplicate = true ∧
    ∀ p ∈ [['0', '7', '6', '9', '8'], ['9', '0', '2', '6', '7']], p.Nodup :=
  ⟨rfl, noDuplicate_all_distinct drawSeq demoDupSettings 0
    [['0', '7', '6', '9', '8'], ['9', '0', '2', '6', '7']] 18 rfl rfl⟩

/-- C8: with symbols enabled, every password of a successful batch contains
at most `⌈length/10⌉` characters of the symbols set (the first position
counts against the quota like every other). -/
theorem symbol_quota_respected (g : Nat → Nat) (s : PasswordSettings) (k : Nat)
    (ps : List (List Char)) (k' : Nat) (hsym : s.includeSymbols = true)
    (h : generatePasswords g s k = (.ok ps, k')) :
    ∀ p ∈ ps,
      p.countP (fun a => (symbolsSetOf s).contains a) ≤ (s.length + 9) / 10 := by
  have hne : symbolsSetOf s ≠ [] := by
    intro hempty
    rw [(symbolsSetOf_empty_iff s).mp hempty] at hsym
    exact Bool.false_ne_true hsym
  unfold generatePasswords at h
  split at h
  · exact absurd (congrArg Prod.fst h) (by simp)
  · refine (batchLoop_ok g s.length (charsetOf s) (firstCharPoolOf s) s.noSimilar
      s.noDuplicate s.noSequential (symbolsSetOf s)
      (fun p => p.countP (fun a => (symbolsSetOf s).contains a) ≤ (s.length + 9) / 10) ?_
      s.amount [] k ps k' (by simp) h).2
    intro k0 p k0' hgen
    exact generateSinglePassword_ok_symbolCount g s.length (charsetOf s)
      (firstCharPoolOf s) s.noSimilar s.noDuplicate s.noSequential (symbolsSetOf s)
      k0 p k0' hne hgen

/-- C8 witness: lowercase plus default symbols at length 20 (quota 2). -/
theorem symbol_quota_respected_witness :
    symbolSettings.includeSymbols = true ∧
    ∀ p ∈ [['a', 'b', 'c', 'd', 'e', 'f', 'g', 'h', 'i', 'j', 'k', 'l', 'm', 'n',
            'o', 'p', 'q', 'r', 's', 't']],
      p.countP (fun a => (symbolsSetOf symbolSettings).contains a) ≤
        (symbolSettings.length + 9) / 10 :=
  ⟨rfl, symbol_quota_respected drawSeq symbolSettings 0
    [['a', 'b', 'c', 'd', 'e', 'f', 'g', 'h', 'i', 'j', 'k', 'l', 'm', 'n',
      'o', 'p', 'q', 'r', 's', 't']] 20 rfl rfl⟩

/-- C1 (amended): for validated settings with positive length, a batch that
completes without error holds exactly `amount` passwords; and each has
exactly `length` characters provided that, when the duplicate-free fast
path is eligible, the similarity-filtered charset still has at least
`length` characters (with `noSimilar` unset this follows from validation). -/
theorem generate_batch_success (g : Nat → Nat) (s : PasswordSettings) (k : Nat)
    (ps : List (List Char)) (k' : Nat)
    (hlen : 1 ≤ s.length)
    (hval : validate s.length (charsetOf s) (firstCharPoolOf s) s.noDuplicate = .ok ())
    (hcap : (s.noDuplicate && !s.noSequential && (symbolsSetOf s).isEmpty) = true →
      s.length ≤ (effCharset (charsetOf s) s.noSimilar).length)
    (h : generatePasswords g s k = (.ok ps, k')) :
    ps.length = s.amount ∧ ∀ p ∈ ps, p.length = s.length := by
  obtain ⟨hcs, hpool, -⟩ := validate_ok_facts _ _ _ _ hval
  rw [generatePasswords_eq_batch g s k hval] at h
  have hb := batchLoop_ok g s.length (charsetOf s) (firstCharPoolOf s) s.noSimilar
    s.noDuplicate s.noSequential (symbolsSetOf s) (fun p => p.length = s.length)
    (fun k0 p k0' hgen => by
      refine generateSinglePassword_ok_length g s.length (charsetOf s) (firstCharPoolOf s)
        s.noSimilar s.noDuplicate s.noSequential (symbolsSetOf s) k0 p k0' hlen
        (fun _ => hpool) (fun hc3 => ?_) hgen
      refine ⟨effCharset_subset s.noSimilar (firstCharPoolOf_subset s), ?_, hcap hc3⟩
      have hsemp : (symbolsSetOf s).isEmpty = true :=
        (Bool.and_eq_true _ _ |>.mp hc3).2
      exact effCharset_nodup s.noSimilar
        (charsetOf_nodup s ((symbolsSetOf_empty_iff s).mp (by simpa using hsemp))))
    s.amount [] k ps k' (by simp) h
  exact ⟨by simpa using hb.1, hb.2⟩

/-- C1 witness: the feasible `demoDupSettings` batch yields 2 passwords of
length 5. -/
theorem generate_batch_success_witness :
    1 ≤ demoDupSettings.length ∧
    validate demoDupSettings.length (charsetOf demoDupSettings)
      (firstCharPoolOf demoDupSettings) demoDupSettings.noDuplicate = .ok () ∧
    ([['0', '7', '6', '9', '8'], ['9', '0', '2', '6', '7']].length =
      demoDupSettings.amount ∧
     ∀ p ∈ [['0', '7', '6', '9', '8'], ['9', '0', '2', '6', '7']],
       p.length = demoDupSettings.length) :=
  ⟨by decide, rfl,
    generate_batch_success drawSeq demoDupSettings 0
      [['0', '7', '6', '9', '8'], ['9', '0', '2', '6', '7']] 18 (by decide) rfl
      (fun _ => by decide) rfl⟩

/-- C1 counterexample: with charset `"@"` (a single symbol) and length 3,
validation passes yet the batch aborts with a character-exhaustion error at
position 1, returning no passwords — the claim's "returns exactly `amount`
passwords" fails. -/
theorem generate_batch_cex :
    validate exhaustSettings.length (charsetOf exhaustSettings)
      (firstCharPoolOf exhaustSettings) exhaustSettings.noDuplicate = .ok () ∧
    (generatePasswords drawSeq exhaustSettings 0).1 =
      .error (.characterExhaustion 2) :=
  ⟨rfl, rfl⟩

/-- C3: with numbers only, `noSimilar` and `noDuplicate` at length 9, the
glossary charset (after similarity filtering) has 8 < 9 characters, yet
validation (which sees the unfiltered 10 digits) passes and generation
silently returns one 8-character password instead of
`NotEnoughUniqueCharsError{8, 9}`. -/
theorem validation_misses_similar_filtering :
    shortSettings.noDuplicate = true ∧ shortSettings.noSimilar = true ∧
    shortSettings.length = 9 ∧
    (effCharset (charsetOf shortSettings) true).length = 8 ∧
    validate shortSettings.length (charsetOf shortSettings)
      (firstCharPoolOf shortSettings) shortSettings.noDuplicate = .ok () ∧
    (generatePasswords drawSeq shortSettings 0).1 =
      .ok [['2', '9', '7', '8', '3', '6', '5', '4']] ∧
    ∀ p ∈ [['2', '9', '7', '8', '3', '6', '5', '4']], p.length = 8 :=
  ⟨rfl, rfl, rfl, rfl, rfl, rfl, by decide⟩

/-- C10: when `noSimilar` is set, single-password generation refilters both
pools against the similar set and raises the empty-charset (resp.
empty-first-char-pool) error exactly when the filtered charset (resp.
filtered pool, with a non-empty filtered charset) is empty; and there are
settings for which validation succeeds yet generation fails this way. -/
theorem similar_filtering_after_validation :
    (∀ (g : Nat → Nat) (len : Nat) (cs pool : List Char) (ndup nseq : Bool)
       (syms : List Char) (k : Nat),
      ((generateSinglePassword g len cs pool true ndup nseq syms k).1 =
          .error .emptyCharsetAfterSimilar ↔
        filterSimilarChars cs similarChars = []) ∧
      ((generateSinglePassword g len cs pool true ndup nseq syms k).1 =
          .error .emptyFirstCharPoolAfterSimilar ↔
        (filterSimilarChars cs similarChars ≠ [] ∧
         filterSimilarChars pool similarChars = []))) ∧
    (validate similarSettings.length (charsetOf similarSettings)
        (firstCharPoolOf similarSettings) similarSettings.noDuplicate = .ok () ∧
     (generatePasswords drawSeq similarSettings 0).1 =
       .error .emptyCharsetAfterSimilar) := by
  constructor
  · intro g len cs pool ndup nseq syms k
    have hecs : effCharset cs true = filterSimilarChars cs similarChars := rfl
    have hepool : effCharset pool true = filterSimilarChars pool similarChars := rfl
    by_cases hc1 : (true && (effCharset cs true).isEmpty) = true
    · have hfcs : filterSimilarChars cs similarChars = [] := by
        rw [← hecs]
        simpa using hc1
      unfold generateSinglePassword
      rw [if_pos hc1]
      exact ⟨by simp [hfcs], by
        constructor
        · intro hfalse
          exact absurd hfalse (by simp)
        · rintro ⟨hne, -⟩
          exact absurd hfcs hne⟩
    · have hfcs : filterSimilarChars cs similarChars ≠ [] := by
        rw [← hecs]
        intro hempty
        exact hc1 (by rw [hempty]; rfl)
      by_cases hc2 : (true && (effCharset pool true).isEmpty) = true
      · have hfpool : filterSimilarChars pool similarChars = [] := by
          rw [← hepool]
          simpa using hc2
        unfold generateSinglePassword
        rw [if_neg hc1, if_pos hc2]
        exact ⟨by
          constructor
          · intro hfalse
            exact absurd hfalse (by simp)
          · intro hcontra
            exact absurd hcontra hfcs, by simp [hfcs, hfpool]⟩
      · have hfpool : filterSimilarChars pool similarChars ≠ [] := by
          rw [← hepool]
          intro hempty
          exact hc2 (by rw [hempty]; rfl)
        have hnone : ∀ e : GenError,
            (generateSinglePassword g len cs pool true ndup nseq syms k).1 = .error e →
            e ≠ .emptyCharsetAfterSimilar ∧ e ≠ .emptyFirstCharPoolAfterSimilar := by
          intro e he
          by_cases hc3 : (ndup && !nseq && syms.isEmpty) = true
          · rw [gsp_fast_eq g len cs pool true ndup nseq syms k
              (Bool.not_eq_true _ ▸ hc1) (Bool.not_eq_true _ ▸ hc2) hc3] at he
            exact absurd he (by simp)
          · rw [gsp_general_eq g len cs pool true ndup nseq syms k
              (Bool.not_eq_true _ ▸ hc1) (Bool.not_eq_true _ ▸ hc2)
              (Bool.not_eq_true _ ▸ hc3)] at he
            split at he
            · have := Except.error.inj he
              subst this
              exact ⟨by simp, by simp⟩
            · rename_i fc k1 hget
              cases hres : fillLoop g (effCharset cs true)
                  ((if ndup then some ([] : List Char) else none).map (fun u => u ++ [fc]))
                  (symbolsSet2Of syms) ((len + 9) / 10) nseq [fc] fc
                  (if (match symbolsSet2Of syms with
                       | some s => s.contains fc
                       | none => false) then 1 else 0) (len - 1) 2 k1 with
              | mk fst snd =>
                rw [hres] at he
                cases fst with
                | ok val => exact absurd he (by simp)
                | error e2 =>
                  obtain ⟨pos, hpos⟩ := fillLoop_error_shape g (effCharset cs true)
                    (symbolsSet2Of syms) ((len + 9) / 10) nseq (len - 1) _ [fc] fc _ 2 k1
                    e2 snd hres
                  have he2 : e2 = e := Except.error.inj he
                  subst he2
                  subst hpos
                  exact ⟨by simp, by simp⟩
        constructor
        · constructor
          · intro hfalse
            exact absurd rfl (hnone _ hfalse).1
          · intro hcontra
            exact absurd hcontra hfcs
        · constructor
          · intro hfalse
            exact absurd rfl (hnone _ hfalse).2
          · rintro ⟨-, hcontra⟩
            exact absurd hcontra hfpool
  · exact ⟨rfl, rfl⟩

end PG
